import Mathlib

/-!
Verification of the imbalanced-DL-sampling repository.

This file gives a shallow embedding, over `ℚ` and `ℝ`, of

* the deferred-reweighting (DRW) schedule implemented identically in
  `LDAMDRWTrainer.get_criterion` (src/imbalanceddl/strategy/_ldam_drw.py,
  lines 24-44) and `MixupTrainer.get_criterion`
  (src/imbalanceddl/strategy/_mixup_drw.py, lines 54-71);
* the strategy dispatch of `get_criterion` in all three trainers
  (ERM, LDAM-DRW, Mixup-DRW);
* the long-tailed count builder `M2M_SVHN_LT.get_img_num_per_cls`,
  the imbalanced-data generator `M2M_SVHN_LT.gen_imbalanced_data`
  and the one-pass index builder `M2M_SVHN_LT.get_imbalanced_data`
  (src/imbalanceddl/dataset/m2m_imbalance_svhn.py);
* the learning-rate expression written to the text log and the
  metrics sink by every trainer's `train_one_epoch`.

Python machine floats are modelled by exact rationals (for the DRW
weights and the logged learning rate) and by real numbers (for the
`imb_factor ** (cls_idx / (cls_num - 1.0))` power in the dataset
builder).  Python exceptions (`ValueError` on an unknown strategy,
`IndexError` on an out-of-range list subscript) are modelled with
`Except` / `Option`.
-/

/-- The two-element beta list `betas = [0, 0.9999]` of
`get_criterion` (`_ldam_drw.py` line 29, `_mixup_drw.py` line 59). -/
def drw_betas : List ℚ := [0, 9999/10000]

/-- The DRW schedule breakpoint: `250` when `cfg.epochs == 300`,
otherwise `160` (`_ldam_drw.py` lines 25-28). -/
def drw_breakpoint (epochs : ℕ) : ℕ := if epochs = 300 then 250 else 160

/-- `betas[idx]` with `idx = epoch // breakpoint`; `none` models the
Python `IndexError` raised when `idx` is past the end of the
two-element list (`_ldam_drw.py` lines 25-30). -/
def drw_beta (epoch epochs : ℕ) : Option ℚ :=
  drw_betas[epoch / drw_breakpoint epochs]?

/-- `effective_num = 1.0 - np.power(betas[idx], cls_num_list)`
(`_ldam_drw.py` line 30). -/
def effective_num (beta : ℚ) (cls_num_list : List ℕ) : List ℚ :=
  cls_num_list.map (fun n => 1 - beta ^ n)

/-- `per_cls_weights = (1.0 - betas[idx]) / np.array(effective_num)`
(`_ldam_drw.py` line 31). -/
def per_cls_weights_raw (beta : ℚ) (cls_num_list : List ℕ) : List ℚ :=
  (effective_num beta cls_num_list).map (fun e => (1 - beta) / e)

/-- `per_cls_weights = per_cls_weights / np.sum(per_cls_weights) *
len(cls_num_list)` (`_ldam_drw.py` lines 32-33). -/
def per_cls_weights (beta : ℚ) (cls_num_list : List ℕ) : List ℚ :=
  let w := per_cls_weights_raw beta cls_num_list
  w.map (fun x => x / w.sum * (cls_num_list.length : ℚ))

/-- The whole weight computation of `get_criterion`, from the epoch to
the per-class weight vector; `none` models the `IndexError` path of
`betas[idx]`. -/
def drw_weights (epoch epochs : ℕ) (cls_num_list : List ℕ) : Option (List ℚ) :=
  (drw_beta epoch epochs).map (fun b => per_cls_weights b cls_num_list)

/-- The loss objects constructed by the three `get_criterion`
implementations: `nn.CrossEntropyLoss(weight=...)` and
`LDAMLoss(cls_num_list=..., max_m=0.5, s=30, weight=...)`. -/
inductive Criterion where
  | crossEntropy (weight : Option (List ℚ))
  | ldam (cls_num_list : List ℕ) (max_m s : ℚ) (weight : List ℚ)
deriving DecidableEq

/-- The Python exceptions reachable from `get_criterion`. -/
inductive PyError where
  | valueError (msg : String)
  | indexError
deriving DecidableEq

/-- The message of the `ValueError` raised by every trainer's
`get_criterion` on an unrecognized strategy. -/
def unsupported_msg : String := "[Warning] Strategy is not supported !"

/-- `ERMTrainer.get_criterion` (src/imbalanceddl/strategy/_erm.py,
lines 18-27): plain cross-entropy with `weight=None` for strategy
`"ERM"`, a `ValueError` otherwise.  An `Except.error` result models
the raise path, on which `self.criterion` is never assigned. -/
def erm_get_criterion (strategy : String) : Except PyError Criterion :=
  if strategy = "ERM" then .ok (.crossEntropy none)
  else .error (.valueError unsupported_msg)

/-- `LDAMDRWTrainer.get_criterion` (`_ldam_drw.py` lines 23-44):
for strategy `"LDAM_DRW"` an `LDAMLoss` with `max_m=0.5`, `s=30` and
the DRW weights; a `ValueError` otherwise.  The weight vector is
computed from `self.cls_num_list`, while `cls_num_list=` passed to
`LDAMLoss` is `self.cfg.cls_num_list`, so the two are kept as
separate parameters. -/
def ldam_get_criterion (strategy : String) (epoch epochs : ℕ)
    (cls_num_list cfg_cls_num_list : List ℕ) : Except PyError Criterion :=
  if strategy = "LDAM_DRW" then
    match drw_weights epoch epochs cls_num_list with
    | some w => .ok (.ldam cfg_cls_num_list (1/2) 30 w)
    | none => .error .indexError
  else .error (.valueError unsupported_msg)

/-- `MixupTrainer.get_criterion` (`_mixup_drw.py` lines 53-71): for
strategy `"Mixup_DRW"` a cross-entropy loss weighted by the DRW
weights; a `ValueError` otherwise. -/
def mixup_get_criterion (strategy : String) (epoch epochs : ℕ)
    (cls_num_list : List ℕ) : Except PyError Criterion :=
  if strategy = "Mixup_DRW" then
    match drw_weights epoch epochs cls_num_list with
    | some w => .ok (.crossEntropy (some w))
    | none => .error .indexError
  else .error (.valueError unsupported_msg)

theorem list_sum_map_mul (l : List ℚ) (r : ℚ) :
    (l.map (fun x => x * r)).sum = l.sum * r := by
  induction l with
  | nil => simp
  | cons a t ih => simp [ih]; ring

theorem drw_beta_cases {epoch epochs : ℕ} {β : ℚ}
    (h : drw_beta epoch epochs = some β) : β = 0 ∨ β = 9999/10000 := by
  have hmem : β ∈ drw_betas :=
    List.get?_mem (by rw [List.get?_eq_getElem?]; exact h)
  simpa [drw_betas] using hmem

theorem per_cls_weights_raw_eq (β : ℚ) (ns : List ℕ) :
    per_cls_weights_raw β ns = ns.map (fun n => (1 - β) / (1 - β ^ n)) := by
  simp [per_cls_weights_raw, effective_num, List.map_map, Function.comp]

theorem per_cls_weights_raw_pos {β : ℚ} {ns : List ℕ}
    (hns : ∀ n ∈ ns, 1 ≤ n) (h0 : 0 ≤ β) (h1 : β < 1) :
    ∀ x ∈ per_cls_weights_raw β ns, 0 < x := by
  intro x hx
  rw [per_cls_weights_raw_eq] at hx
  obtain ⟨n, hn, rfl⟩ := List.mem_map.mp hx
  have hne : n ≠ 0 := by have := hns n hn; omega
  have hβn : β ^ n < 1 := pow_lt_one₀ h0 h1 hne
  exact div_pos (by linarith) (by linarith)

theorem per_cls_weights_raw_sum_pos {β : ℚ} {ns : List ℕ}
    (hns : ∀ n ∈ ns, 1 ≤ n) (h0 : 0 ≤ β) (h1 : β < 1) (hne : ns ≠ []) :
    0 < (per_cls_weights_raw β ns).sum := by
  apply List.sum_pos _ (per_cls_weights_raw_pos hns h0 h1)
  rw [per_cls_weights_raw_eq]
  simpa using hne

/-- **C1.** For every epoch and every `cls_num_list` whose entries are
all at least 1, the per-class weights computed by `get_criterion` in
both the LDAM-DRW and the Mixup-DRW trainer satisfy: with `β` selected
by the schedule, `effective_num[c] = 1 - β ^ cls_num_list[c]` and
`weight[c] = (1 - β) / effective_num[c]`, L1-normalized and rescaled
by `num_classes` so that the weights sum to `num_classes`; when the
selected `β` is `0` (epoch below the breakpoint) the weight vector is
the all-ones vector. -/
theorem drw_weights_spec
    (epoch epochs : ℕ) (ns : List ℕ) (β : ℚ)
    (hns : ∀ n ∈ ns, 1 ≤ n) (hne : ns ≠ [])
    (hβ : drw_beta epoch epochs = some β) :
    drw_weights epoch epochs ns = some (per_cls_weights β ns) ∧
    (∀ cfg_ns, ldam_get_criterion "LDAM_DRW" epoch epochs ns cfg_ns =
      .ok (.ldam cfg_ns (1/2) 30 (per_cls_weights β ns))) ∧
    mixup_get_criterion "Mixup_DRW" epoch epochs ns =
      .ok (.crossEntropy (some (per_cls_weights β ns))) ∧
    (per_cls_weights β ns).sum = (ns.length : ℚ) ∧
    (∀ c, c < ns.length →
      (per_cls_weights β ns).getD c 0 =
        (1 - β) / (1 - β ^ ns.getD c 0) / (per_cls_weights_raw β ns).sum
          * (ns.length : ℚ)) ∧
    (epoch < drw_breakpoint epochs →
      per_cls_weights β ns = List.replicate ns.length 1) := by
  have hβ01 : 0 ≤ β ∧ β < 1 := by
    rcases drw_beta_cases hβ with rfl | rfl <;> norm_num
  obtain ⟨h0, h1⟩ := hβ01
  have hS : 0 < (per_cls_weights_raw β ns).sum :=
    per_cls_weights_raw_sum_pos hns h0 h1 hne
  have hKne : ns.length ≠ 0 := fun h => hne (List.length_eq_zero.mp h)
  have hK : (0:ℚ) < (ns.length : ℚ) := by
    exact_mod_cast Nat.pos_of_ne_zero hKne
  refine ⟨?_, ?_, ?_, ?_, ?_, ?_⟩
  · simp [drw_weights, hβ]
  · intro cfg_ns; simp [ldam_get_criterion, drw_weights, hβ]
  · simp [mixup_get_criterion, drw_weights, hβ]
  · have hw_eq : per_cls_weights β ns =
        (per_cls_weights_raw β ns).map
          (fun x => x * ((ns.length : ℚ) / (per_cls_weights_raw β ns).sum)) := by
      simp only [per_cls_weights]
      exact List.map_congr_left
        (fun x _ => by rw [div_mul_eq_mul_div, mul_div_assoc])
    rw [hw_eq, list_sum_map_mul]
    field_simp
  · intro c hc
    have hmap : per_cls_weights β ns =
        ns.map (fun n => (1 - β) / (1 - β ^ n) /
          (per_cls_weights_raw β ns).sum * (ns.length : ℚ)) := by
      simp only [per_cls_weights, per_cls_weights_raw, effective_num,
        List.map_map]
      rfl
    rw [hmap, List.getD_eq_getElem?_getD, List.getElem?_map,
      List.getElem?_eq_getElem hc]
    simp [List.getD_eq_getElem?_getD, List.getElem?_eq_getElem hc]
  · intro hlt
    have hidx : epoch / drw_breakpoint epochs = 0 := Nat.div_eq_of_lt hlt
    have hβ0 : β = 0 := by
      unfold drw_beta at hβ
      rw [hidx] at hβ
      simpa [drw_betas] using hβ.symm
    subst hβ0
    have hraw : per_cls_weights_raw 0 ns = List.replicate ns.length 1 := by
      rw [per_cls_weights_raw_eq,
        List.map_congr_left (g := fun _ => (1:ℚ)) ?_]
      · exact List.map_const' ns 1
      · intro n hn
        have hn0 : n ≠ 0 := by have := hns n hn; omega
        simp [zero_pow hn0]
    have hsum : (per_cls_weights_raw 0 ns).sum = (ns.length : ℚ) := by
      rw [hraw, List.sum_replicate]; simp
    simp only [per_cls_weights, hraw, hsum, List.map_replicate]
    congr 1
    field_simp

/-- Witness for C1 at `epoch = 0`, `epochs = 200`,
`cls_num_list = [2, 3]`: the schedule selects `β = 0` and the weight
vector is the all-ones vector. -/
theorem drw_weights_spec_witness :
    (∀ n ∈ ([2, 3] : List ℕ), 1 ≤ n) ∧ ([2, 3] : List ℕ) ≠ [] ∧
      drw_beta 0 200 = some 0 ∧
      per_cls_weights 0 [2, 3] = List.replicate 2 1 :=
  ⟨by decide, by decide, by decide,
    (drw_weights_spec 0 200 [2, 3] 0 (by decide) (by decide)
      (by decide)).2.2.2.2.2 (by decide)⟩

/-- **C2 (failing evaluation).** The schedule index
`idx = epoch // breakpoint` is *not* clamped: at `epoch = 320` with
`epochs = 400` (breakpoint 160) the index is `2`, so the subscript
`betas[idx]` into the two-element list is out of bounds (`none`
models the Python `IndexError`) and the whole weight computation
fails, contradicting the claimed clamping to `{0, 1}`. -/
theorem drw_idx_not_clamped :
    320 / drw_breakpoint 400 = 2 ∧ drw_beta 320 400 = none ∧
    drw_weights 320 400 [5, 3] = none := by decide

/-- **C3 (failing evaluation).** There is no guard against a zero
class count: at `epoch = 160`, `epochs = 200` the schedule selects
`β = 0.9999`, and for `cls_num_list = [0, 1]` the effective-number
vector contains `1 - 0.9999 ^ 0 = 0`, yet the computation proceeds
into the division `(1 - β) / effective_num[c]` (in NumPy this yields
`inf` with a runtime warning, and after normalization `nan`) instead
of surfacing a `DivisionByZero`/`InvalidClassCount` error. -/
theorem drw_zero_count_unguarded :
    drw_beta 160 200 = some (9999/10000) ∧
    effective_num (9999/10000) [0, 1] = [0, 1/10000] ∧
    (drw_weights 160 200 [0, 1]).isSome = true := by
  have hb : drw_beta 160 200 = some (9999/10000) := by
    norm_num [drw_beta, drw_breakpoint, drw_betas]
  refine ⟨hb, ?_, ?_⟩
  · norm_num [effective_num]
  · simp [drw_weights, hb]

/-- **C4.** Each trainer's `get_criterion` rejects every strategy
name other than its own recognized one by raising
`ValueError("[Warning] Strategy is not supported !")` immediately,
without falling back to a default criterion; on that path the
`criterion` field is never assigned (the `Except.error` result
carries no criterion). -/
theorem get_criterion_rejects_unknown_strategy :
    (∀ s : String, s ≠ "ERM" →
      erm_get_criterion s = .error (.valueError unsupported_msg)) ∧
    (∀ (s : String) (epoch epochs : ℕ) (ns cfg_ns : List ℕ),
      s ≠ "LDAM_DRW" →
      ldam_get_criterion s epoch epochs ns cfg_ns =
        .error (.valueError unsupported_msg)) ∧
    (∀ (s : String) (epoch epochs : ℕ) (ns : List ℕ), s ≠ "Mixup_DRW" →
      mixup_get_criterion s epoch epochs ns =
        .error (.valueError unsupported_msg)) := by
  refine ⟨?_, ?_, ?_⟩
  · intro s hs; simp [erm_get_criterion, hs]
  · intro s _ _ _ _ hs; simp [ldam_get_criterion, hs]
  · intro s _ _ _ hs; simp [mixup_get_criterion, hs]

/-- Witness for C4 at the unrecognized strategy name `"DRX"`. -/
theorem get_criterion_rejects_unknown_strategy_witness :
    ("DRX" ≠ "ERM" ∧
      erm_get_criterion "DRX" = .error (.valueError unsupported_msg)) ∧
    ("DRX" ≠ "LDAM_DRW" ∧
      ldam_get_criterion "DRX" 0 200 [1] [1] =
        .error (.valueError unsupported_msg)) ∧
    ("DRX" ≠ "Mixup_DRW" ∧
      mixup_get_criterion "DRX" 0 200 [1] =
        .error (.valueError unsupported_msg)) :=
  ⟨⟨by decide, get_criterion_rejects_unknown_strategy.1 "DRX" (by decide)⟩,
   ⟨by decide,
    get_criterion_rejects_unknown_strategy.2.1 "DRX" 0 200 [1] [1]
      (by decide)⟩,
   ⟨by decide,
    get_criterion_rejects_unknown_strategy.2.2 "DRX" 0 200 [1]
      (by decide)⟩⟩

/-- A PyTorch optimizer parameter group, reduced to the only field the
trainers' logging code reads: `'lr'`. -/
structure ParamGroup where
  lr : ℚ
deriving DecidableEq

/-- The optimizer, reduced to its parameter-group list. -/
structure Optimizer where
  param_groups : List ParamGroup
deriving DecidableEq

/-- `self.optimizer.param_groups[-1]['lr']`: the learning rate the
optimizer currently exposes through its parameter groups (Python's
`[-1]` is the last element; a default for the empty-list case stands
in for the `IndexError`, which the theorems exclude by hypothesis). -/
def optimizer_lr (opt : Optimizer) : ℚ :=
  (opt.param_groups.getLastD ⟨0⟩).lr

/-- The `lr` value formatted into the periodic log line by
`ERMTrainer.train_one_epoch` (`_erm.py` line 76):
`self.optimizer.param_groups[-1]['lr'] * 0.1`. -/
def erm_logged_lr (opt : Optimizer) : ℚ := optimizer_lr opt * (1/10)

/-- The `"lr"` value sent to the wandb metrics sink by
`ERMTrainer.train_one_epoch` (`_erm.py` line 85). -/
def erm_wandb_lr (opt : Optimizer) : ℚ := optimizer_lr opt * (1/10)

/-- The `lr` value in the LDAM-DRW log line (`_ldam_drw.py` line 93). -/
def ldam_logged_lr (opt : Optimizer) : ℚ := optimizer_lr opt * (1/10)

/-- The `lr` value in the Mixup-DRW log line (`_mixup_drw.py` line 126). -/
def mixup_logged_lr (opt : Optimizer) : ℚ := optimizer_lr opt * (1/10)

/-- The `"lr"` value sent to wandb by `MixupTrainer.train_one_epoch`
(`_mixup_drw.py` line 135). -/
def mixup_wandb_lr (opt : Optimizer) : ℚ := optimizer_lr opt * (1/10)

/-- `if i % self.cfg.print_freq == 0`: the periodic-report condition
of every trainer's `train_one_epoch`. -/
def report_emitted (i print_freq : ℕ) : Bool := i % print_freq == 0

/-- **C9 (counterexample).** At an optimizer whose (single) parameter
group has learning rate `0.1`, and at batch index `0` where a report
is emitted, every trainer logs `0.01`, which differs from the
optimizer's current learning rate `0.1`: the code multiplies the
exposed rate by `0.1` before emitting it. -/
theorem logged_lr_ne_optimizer_lr :
    report_emitted 0 10 = true ∧
    optimizer_lr ⟨[⟨1/10⟩]⟩ = 1/10 ∧
    erm_logged_lr ⟨[⟨1/10⟩]⟩ = 1/100 ∧
    ldam_logged_lr ⟨[⟨1/10⟩]⟩ = 1/100 ∧
    mixup_logged_lr ⟨[⟨1/10⟩]⟩ = 1/100 ∧
    erm_wandb_lr ⟨[⟨1/10⟩]⟩ = 1/100 ∧
    (1/100 : ℚ) ≠ 1/10 := by
  norm_num [report_emitted, optimizer_lr, erm_logged_lr, ldam_logged_lr,
    mixup_logged_lr, erm_wandb_lr, List.getLastD]

/-- **C9 (amended).** On every periodic report, the learning-rate
value each trainer emits to the log line and to the wandb metrics
sink equals `0.1` times the optimizer's current learning rate (the
last parameter group's `'lr'`); in particular the emitted value
agrees with the optimizer's rate only when that rate is `0`.  All
five emission sites use the same expression. -/
theorem logged_lr_is_tenth_of_optimizer_lr
    (opt : Optimizer) (i pf : ℕ)
    (hpf : 0 < pf) (hrep : report_emitted i pf = true) :
    erm_logged_lr opt = optimizer_lr opt * (1/10) ∧
    erm_wandb_lr opt = erm_logged_lr opt ∧
    ldam_logged_lr opt = erm_logged_lr opt ∧
    mixup_logged_lr opt = erm_logged_lr opt ∧
    mixup_wandb_lr opt = erm_logged_lr opt ∧
    (erm_logged_lr opt = optimizer_lr opt ↔ optimizer_lr opt = 0) := by
  refine ⟨rfl, rfl, rfl, rfl, rfl, ?_⟩
  unfold erm_logged_lr
  constructor
  · intro h; linarith
  · intro h; rw [h]; ring

/-- Witness for the amended C9 at a one-group optimizer with
`lr = 1` reporting at batch `0` with `print_freq = 1`. -/
theorem logged_lr_is_tenth_of_optimizer_lr_witness :
    (0 < 1 ∧ report_emitted 0 1 = true) ∧
    (erm_logged_lr ⟨[⟨1⟩]⟩ = optimizer_lr ⟨[⟨1⟩]⟩ * (1/10) ∧
     erm_wandb_lr ⟨[⟨1⟩]⟩ = erm_logged_lr ⟨[⟨1⟩]⟩ ∧
     ldam_logged_lr ⟨[⟨1⟩]⟩ = erm_logged_lr ⟨[⟨1⟩]⟩ ∧
     mixup_logged_lr ⟨[⟨1⟩]⟩ = erm_logged_lr ⟨[⟨1⟩]⟩ ∧
     mixup_wandb_lr ⟨[⟨1⟩]⟩ = erm_logged_lr ⟨[⟨1⟩]⟩ ∧
     (erm_logged_lr ⟨[⟨1⟩]⟩ = optimizer_lr ⟨[⟨1⟩]⟩ ↔
       optimizer_lr ⟨[⟨1⟩]⟩ = 0)) :=
  ⟨⟨by decide, by decide⟩,
   logged_lr_is_tenth_of_optimizer_lr ⟨[⟨1⟩]⟩ 0 1 (by decide) (by decide)⟩

/-- Python's `int(x)` applied to a float: truncation toward zero. -/
noncomputable def pyInt (x : ℝ) : ℤ := if 0 ≤ x then ⌊x⌋ else -⌊-x⌋

/-- `M2M_SVHN_LT.get_img_num_per_cls`
(src/imbalanceddl/dataset/m2m_imbalance_svhn.py, lines 72-88):
`img_max = 1000`; for `imb_type == 'exp'` the count for class index
`cls_idx` is `int(img_max * imb_factor ** (cls_idx / (cls_num - 1.0)))`;
for `imb_type == 'step'` the first `cls_num // 2` classes get
`int(img_max)` and the next `cls_num // 2` get
`int(img_max * imb_factor)`; otherwise every class gets
`int(img_max)`.  The float power is modelled by the real power
`Real.rpow`. -/
noncomputable def get_img_num_per_cls (cls_num : ℕ) (imb_type : String)
    (imb_factor : ℝ) : List ℤ :=
  let img_max : ℝ := 1000
  if imb_type = "exp" then
    (List.range cls_num).map (fun (cls_idx : ℕ) =>
      pyInt (img_max * imb_factor ^ ((cls_idx : ℝ) / ((cls_num : ℝ) - 1))))
  else if imb_type = "step" then
    (List.range (cls_num / 2)).map (fun _ => pyInt img_max) ++
      (List.range (cls_num / 2)).map (fun _ => pyInt (img_max * imb_factor))
  else
    List.replicate cls_num (pyInt img_max)

theorem pyInt_of_nonneg {x : ℝ} (h : 0 ≤ x) : pyInt x = ⌊x⌋ := if_pos h

theorem get_img_num_per_cls_exp_getD (cls_num : ℕ) (f : ℝ) {c : ℕ}
    (hc : c < cls_num) :
    (get_img_num_per_cls cls_num "exp" f).getD c 0 =
      pyInt (1000 * f ^ ((c : ℝ) / ((cls_num : ℝ) - 1))) := by
  unfold get_img_num_per_cls
  rw [if_pos rfl, List.getD_eq_getElem?_getD, List.getElem?_map,
    List.getElem?_range hc]
  rfl

theorem floor_thousand_mul_sqrt_tenth :
    ⌊(1000 : ℝ) * (1/10 : ℝ) ^ ((1:ℝ)/2)⌋ = 316 := by
  rw [show ((1:ℝ)/10) ^ ((1:ℝ)/2) = Real.sqrt (1/10) from
    (Real.sqrt_eq_rpow _).symm]
  have h1 : (316/1000 : ℝ) ≤ Real.sqrt (1/10) :=
    (Real.le_sqrt (by norm_num) (by norm_num)).mpr (by norm_num)
  have h2 : Real.sqrt (1/10) < 317/1000 :=
    (Real.sqrt_lt' (by norm_num)).mpr (by norm_num)
  rw [Int.floor_eq_iff]
  constructor
  · push_cast
    linarith
  · push_cast
    linarith

/-- **C5.** For every `cls_num ≥ 2` and every `0 < imb_factor ≤ 1`,
`get_img_num_per_cls` with `imb_type = "exp"` returns a list of
length `cls_num` whose `c`-th entry is
`⌊img_max * imb_factor ^ (c / (cls_num - 1))⌋` (the Python `int`
truncation coincides with the floor because the value is
nonnegative); hence the counts are monotonically non-increasing, the
first (majority) count is `img_max = 1000`, the last (minority) count
is `⌊1000 * imb_factor⌋`, so the minority/majority ratio equals
`imb_factor` within rounding (`1000 f - 1 < last ≤ 1000 f`); and in
particular `cls_num = 3`, `imb_factor = 0.1` gives
`[1000, 316, 100]`. -/
theorem get_img_num_per_cls_exp_spec :
    (∀ (cls_num : ℕ) (f : ℝ), 2 ≤ cls_num → 0 < f → f ≤ 1 →
      (get_img_num_per_cls cls_num "exp" f).length = cls_num ∧
      (∀ c, c < cls_num →
        (get_img_num_per_cls cls_num "exp" f).getD c 0 =
          ⌊(1000 : ℝ) * f ^ ((c : ℝ) / ((cls_num : ℝ) - 1))⌋) ∧
      (∀ c d, c ≤ d → d < cls_num →
        (get_img_num_per_cls cls_num "exp" f).getD d 0 ≤
          (get_img_num_per_cls cls_num "exp" f).getD c 0) ∧
      (get_img_num_per_cls cls_num "exp" f).getD 0 0 = 1000 ∧
      (get_img_num_per_cls cls_num "exp" f).getD (cls_num - 1) 0 =
        ⌊(1000 : ℝ) * f⌋ ∧
      (1000 : ℝ) * f - 1 <
        ((get_img_num_per_cls cls_num "exp" f).getD (cls_num - 1) 0 : ℝ) ∧
      ((get_img_num_per_cls cls_num "exp" f).getD (cls_num - 1) 0 : ℝ) ≤
        1000 * f) ∧
    get_img_num_per_cls 3 "exp" ((1:ℝ)/10) = [1000, 316, 100] := by
  constructor
  · intro n f hn hf0 hf1
    have hden : (0:ℝ) < (n:ℝ) - 1 := by
      have h2 : (2:ℝ) ≤ (n:ℝ) := by exact_mod_cast hn
      linarith
    have hentry : ∀ c, c < n →
        (get_img_num_per_cls n "exp" f).getD c 0 =
          ⌊(1000:ℝ) * f ^ ((c:ℝ)/((n:ℝ)-1))⌋ := by
      intro c hc
      rw [get_img_num_per_cls_exp_getD n f hc, pyInt_of_nonneg]
      have := Real.rpow_pos_of_pos hf0 ((c:ℝ)/((n:ℝ)-1))
      positivity
    have hlast : (get_img_num_per_cls n "exp" f).getD (n-1) 0 =
        ⌊(1000:ℝ)*f⌋ := by
      rw [hentry (n-1) (by omega)]
      congr 1
      have hc : ((n-1:ℕ):ℝ) = (n:ℝ) - 1 := by
        push_cast [Nat.cast_sub (by omega : 1 ≤ n)]
        ring
      rw [hc, div_self (by linarith), Real.rpow_one]
    refine ⟨?_, hentry, ?_, ?_, hlast, ?_, ?_⟩
    · simp [get_img_num_per_cls]
    · intro c d hcd hd
      rw [hentry c (by omega), hentry d hd]
      apply Int.floor_le_floor
      apply mul_le_mul_of_nonneg_left _ (by norm_num)
      apply Real.rpow_le_rpow_of_exponent_ge hf0 hf1
      gcongr
    · rw [hentry 0 (by omega),
        show ((0:ℕ):ℝ)/((n:ℝ)-1) = 0 by norm_num, Real.rpow_zero,
        show (1000:ℝ) * 1 = ((1000:ℤ):ℝ) by norm_num, Int.floor_intCast]
    · rw [hlast]
      exact Int.sub_one_lt_floor _
    · rw [hlast]
      exact Int.floor_le _
  · have e0 : (get_img_num_per_cls 3 "exp" ((1:ℝ)/10)).getD 0 0 = 1000 := by
      rw [get_img_num_per_cls_exp_getD 3 ((1:ℝ)/10) (by omega),
        pyInt_of_nonneg (by positivity),
        show ((0:ℕ):ℝ)/(((3:ℕ):ℝ)-1) = 0 by norm_num, Real.rpow_zero,
        show (1000:ℝ) * 1 = ((1000:ℤ):ℝ) by norm_num, Int.floor_intCast]
    have e1 : (get_img_num_per_cls 3 "exp" ((1:ℝ)/10)).getD 1 0 = 316 := by
      rw [get_img_num_per_cls_exp_getD 3 ((1:ℝ)/10) (by omega),
        pyInt_of_nonneg (by positivity),
        show ((1:ℕ):ℝ)/(((3:ℕ):ℝ)-1) = (1:ℝ)/2 by norm_num]
      exact floor_thousand_mul_sqrt_tenth
    have e2 : (get_img_num_per_cls 3 "exp" ((1:ℝ)/10)).getD 2 0 = 100 := by
      rw [get_img_num_per_cls_exp_getD 3 ((1:ℝ)/10) (by omega),
        pyInt_of_nonneg (by positivity),
        show ((2:ℕ):ℝ)/(((3:ℕ):ℝ)-1) = (1:ℝ) by norm_num, Real.rpow_one,
        show (1000:ℝ) * (1/10) = ((100:ℤ):ℝ) by norm_num, Int.floor_intCast]
    have hlen : (get_img_num_per_cls 3 "exp" ((1:ℝ)/10)).length = 3 := by
      simp [get_img_num_per_cls]
    apply List.ext_getElem (by rw [hlen]; rfl)
    intro i h1 h2
    have h3 : i < 3 := by simpa using h2
    have hgetD : ∀ (j : ℕ)
        (hj : j < (get_img_num_per_cls 3 "exp" ((1:ℝ)/10)).length) (v : ℤ),
        (get_img_num_per_cls 3 "exp" ((1:ℝ)/10)).getD j 0 = v →
        (get_img_num_per_cls 3 "exp" ((1:ℝ)/10))[j] = v := by
      intro j hj v hv
      rw [List.getD_eq_getElem?_getD, List.getElem?_eq_getElem hj] at hv
      simpa using hv
    interval_cases i
    · exact hgetD 0 (by rw [hlen]; omega) 1000 e0
    · exact hgetD 1 (by rw [hlen]; omega) 316 e1
    · exact hgetD 2 (by rw [hlen]; omega) 100 e2

/-- Witness for C5 at `cls_num = 3`, `imb_factor = 1/10`. -/
theorem get_img_num_per_cls_exp_spec_witness :
    ((2:ℕ) ≤ 3 ∧ (0:ℝ) < 1/10 ∧ (1/10:ℝ) ≤ 1) ∧
    (get_img_num_per_cls 3 "exp" ((1:ℝ)/10)).getD 0 0 = 1000 :=
  ⟨⟨by norm_num, by norm_num, by norm_num⟩,
   (get_img_num_per_cls_exp_spec.1 3 (1/10) (by norm_num) (by norm_num)
     (by norm_num)).2.2.2.1⟩

theorem get_img_num_per_cls_step_getD_lo (cls_num : ℕ) (f : ℝ) {c : ℕ}
    (hc : c < cls_num / 2) :
    (get_img_num_per_cls cls_num "step" f).getD c 0 = pyInt 1000 := by
  unfold get_img_num_per_cls
  rw [if_neg (by decide), if_pos rfl,
    List.getD_append _ _ _ _ (by simpa using hc),
    List.getD_eq_getElem?_getD, List.getElem?_map, List.getElem?_range hc]
  rfl

theorem get_img_num_per_cls_step_getD_hi (cls_num : ℕ) (f : ℝ) {c : ℕ}
    (hlo : cls_num / 2 ≤ c) (hc : c - cls_num / 2 < cls_num / 2) :
    (get_img_num_per_cls cls_num "step" f).getD c 0 = pyInt (1000 * f) := by
  unfold get_img_num_per_cls
  rw [if_neg (by decide), if_pos rfl,
    List.getD_append_right _ _ _ _ (by simpa using hlo)]
  simp only [List.length_map, List.length_range]
  rw [List.getD_eq_getElem?_getD, List.getElem?_map, List.getElem?_range hc]
  rfl

theorem pyInt_thousand : pyInt 1000 = 1000 := by
  rw [pyInt_of_nonneg (by norm_num),
    show (1000:ℝ) = ((1000:ℤ):ℝ) by norm_num, Int.floor_intCast]

/-- **C6 (amended).** For every even `cls_num` and every
`imb_factor ≥ 0`, `get_img_num_per_cls` with `imb_type = "step"`
returns a list of length `cls_num` whose first `cls_num/2` entries
equal `img_max = 1000` and whose remaining `cls_num/2` entries equal
`⌊img_max * imb_factor⌋`; in particular `cls_num = 4`,
`imb_factor = 0.5` gives `[1000, 1000, 500, 500]`.  (The claim's
unrestricted "every imb_factor" fails for negative factors, where
Python's `int()` truncates toward zero instead of flooring.) -/
theorem get_img_num_per_cls_step_spec :
    (∀ (cls_num : ℕ) (f : ℝ), cls_num % 2 = 0 → 0 ≤ f →
      (get_img_num_per_cls cls_num "step" f).length = cls_num ∧
      (∀ c, c < cls_num / 2 →
        (get_img_num_per_cls cls_num "step" f).getD c 0 = 1000) ∧
      (∀ c, cls_num / 2 ≤ c → c < cls_num →
        (get_img_num_per_cls cls_num "step" f).getD c 0 =
          ⌊(1000:ℝ) * f⌋)) ∧
    get_img_num_per_cls 4 "step" ((1:ℝ)/2) = [1000, 1000, 500, 500] := by
  constructor
  · intro n f hev hf
    refine ⟨?_, ?_, ?_⟩
    · unfold get_img_num_per_cls
      rw [if_neg (by decide), if_pos rfl]
      simp only [List.length_append, List.length_map, List.length_range]
      omega
    · intro c hc
      rw [get_img_num_per_cls_step_getD_lo n f hc, pyInt_thousand]
    · intro c hlo hhi
      rw [get_img_num_per_cls_step_getD_hi n f hlo (by omega),
        pyInt_of_nonneg (by positivity)]
  · have e5 : pyInt (1000 * ((1:ℝ)/2)) = 500 := by
      rw [pyInt_of_nonneg (by norm_num),
        show (1000:ℝ) * ((1:ℝ)/2) = ((500:ℤ):ℝ) by norm_num,
        Int.floor_intCast]
    have hlen : (get_img_num_per_cls 4 "step" ((1:ℝ)/2)).length = 4 := by
      unfold get_img_num_per_cls
      rw [if_neg (by decide), if_pos rfl]
      simp
    have hgetD : ∀ (j : ℕ)
        (hj : j < (get_img_num_per_cls 4 "step" ((1:ℝ)/2)).length) (v : ℤ),
        (get_img_num_per_cls 4 "step" ((1:ℝ)/2)).getD j 0 = v →
        (get_img_num_per_cls 4 "step" ((1:ℝ)/2))[j] = v := by
      intro j hj v hv
      rw [List.getD_eq_getElem?_getD, List.getElem?_eq_getElem hj] at hv
      simpa using hv
    apply List.ext_getElem (by rw [hlen]; rfl)
    intro i h1 h2
    have h3 : i < 4 := by simpa using h2
    interval_cases i
    · exact hgetD 0 (by rw [hlen]; omega) 1000
        (by rw [get_img_num_per_cls_step_getD_lo 4 _ (by omega),
          pyInt_thousand])
    · exact hgetD 1 (by rw [hlen]; omega) 1000
        (by rw [get_img_num_per_cls_step_getD_lo 4 _ (by omega),
          pyInt_thousand])
    · exact hgetD 2 (by rw [hlen]; omega) 500
        (by rw [get_img_num_per_cls_step_getD_hi 4 _ (by omega) (by omega),
          e5])
    · exact hgetD 3 (by rw [hlen]; omega) 500
        (by rw [get_img_num_per_cls_step_getD_hi 4 _ (by omega) (by omega),
          e5])

/-- **C6 (counterexample).** For the negative factor
`imb_factor = -1/10000` the claim's "entry equals
`floor(img_max * imb_factor)`" is false: Python's `int()` truncates
`1000 * (-1/10000) = -0.1` toward zero, giving `0`, while the floor
is `-1`. -/
theorem get_img_num_per_cls_step_not_floor :
    (get_img_num_per_cls 4 "step" (-(1:ℝ)/10000)).getD 2 0 = 0 ∧
    ⌊(1000:ℝ) * (-(1:ℝ)/10000)⌋ = -1 ∧ (0:ℤ) ≠ -1 := by
  refine ⟨?_, ?_, by decide⟩
  · rw [get_img_num_per_cls_step_getD_hi 4 (-(1:ℝ)/10000) (by omega)
      (by omega)]
    unfold pyInt
    rw [if_neg (by norm_num),
      show -((1000:ℝ) * (-(1:ℝ)/10000)) = 1/10 by norm_num,
      show (0:ℤ) = -0 by norm_num]
    congr 1
    rw [Int.floor_eq_iff]
    constructor
    · push_cast
      norm_num
    · push_cast
      norm_num
  · rw [show (1000:ℝ) * (-(1:ℝ)/10000) = -((1:ℝ)/10) by norm_num,
      Int.floor_eq_iff]
    constructor
    · push_cast
      norm_num
    · push_cast
      norm_num

/-- Witness for the amended C6 at `cls_num = 4`, `imb_factor = 1/2`. -/
theorem get_img_num_per_cls_step_spec_witness :
    ((4:ℕ) % 2 = 0 ∧ (0:ℝ) ≤ 1/2) ∧
    (get_img_num_per_cls 4 "step" ((1:ℝ)/2)).length = 4 :=
  ⟨⟨by norm_num, by norm_num⟩,
   (get_img_num_per_cls_step_spec.1 4 (1/2) (by norm_num) (by norm_num)).1⟩

/-- The loop of `M2M_SVHN_LT.get_imbalanced_data`
(src/imbalanceddl/dataset/m2m_imbalance_svhn.py, lines 117-135): one
pass over the dataset; `i` is the current dataset index, `labels` the
remaining labels, `budget` the mutable copy
`list(num_sample_per_class)`.  An index is appended when its label's
remaining budget is `> 0`, and that budget entry is decremented.
`none` models the `IndexError` raised when a label is out of range of
the budget list. -/
def get_imbalanced_data_go : List ℕ → List ℤ → ℕ → Option (List ℕ)
  | [], _, _ => some []
  | l :: ls, budget, i =>
    match budget[l]? with
    | none => none
    | some b =>
      if 0 < b then
        (get_imbalanced_data_go ls (budget.set l (b - 1)) (i + 1)).map
          (fun r => i :: r)
      else get_imbalanced_data_go ls budget (i + 1)

/-- `M2M_SVHN_LT.get_imbalanced_data(dataset, num_sample_per_class)`:
the dataset is reduced to its label sequence in index order (the code
reads `dataset.__getitem__(index)` only for the label). -/
def get_imbalanced_data (labels : List ℕ)
    (num_sample_per_class : List ℤ) : Option (List ℕ) :=
  get_imbalanced_data_go labels num_sample_per_class 0

theorem get_imbalanced_data_go_sublist :
    ∀ (ls : List ℕ) (budget : List ℤ) (i : ℕ) (res : List ℕ),
      get_imbalanced_data_go ls budget i = some res →
      res.Sublist (List.range' i ls.length) := by
  intro ls
  induction ls with
  | nil =>
    intro budget i res h
    simp only [get_imbalanced_data_go, Option.some.injEq] at h
    subst h
    simp
  | cons l ls ih =>
    intro budget i res h
    rw [List.length_cons, List.range'_succ]
    simp only [get_imbalanced_data_go] at h
    split at h
    next => simp at h
    next b hb =>
      split at h
      next hpos =>
        cases hr : get_imbalanced_data_go ls (budget.set l (b - 1)) (i + 1)
          with
        | none => rw [hr] at h; simp at h
        | some r =>
          rw [hr] at h
          simp only [Option.map_some', Option.some.injEq] at h
          subst h
          exact List.Sublist.cons₂ i (ih _ _ _ hr)
      next hpos =>
        exact List.Sublist.cons i (ih _ _ _ h)

/-- **C10.** Whenever `get_imbalanced_data` returns an index list, it
is a strictly increasing subsequence of `0 .. len(dataset) - 1` with
no repetitions, and its length never exceeds `len(dataset)`: the
builder makes exactly one pass over the dataset. -/
theorem get_imbalanced_data_strictly_increasing
    (labels : List ℕ) (num_sample_per_class : List ℤ) (res : List ℕ)
    (h : get_imbalanced_data labels num_sample_per_class = some res) :
    res.Sublist (List.range labels.length) ∧
    res.Pairwise (· < ·) ∧
    (∀ x ∈ res, x < labels.length) ∧
    res.Nodup ∧
    res.length ≤ labels.length := by
  have hsub : res.Sublist (List.range labels.length) := by
    have hgo := get_imbalanced_data_go_sublist labels num_sample_per_class
      0 res h
    rwa [← List.range_eq_range'] at hgo
  refine ⟨hsub,
    List.Pairwise.sublist hsub (List.pairwise_lt_range _), ?_, ?_, ?_⟩
  · intro x hx
    exact List.mem_range.mp (hsub.subset hx)
  · exact List.Nodup.sublist hsub (List.nodup_range _)
  · simpa using hsub.length_le

/-- Witness for C10 at labels `[0, 0, 1, 0]`, budgets `[2, 1]`. -/
theorem get_imbalanced_data_strictly_increasing_witness :
    get_imbalanced_data [0, 0, 1, 0] [2, 1] = some [0, 1, 2] ∧
    ([0, 1, 2] : List ℕ).Pairwise (· < ·) :=
  ⟨by decide,
   (get_imbalanced_data_strictly_increasing [0, 0, 1, 0] [2, 1] [0, 1, 2]
     (by decide)).2.1⟩

/-- The per-index retention condition that characterizes the one-pass
builder: dataset index `k` is kept exactly when the number of
occurrences of its label among the first `k + 1` samples still fits
in that label's budget. -/
def retainedB (ls : List ℕ) (budget : List ℤ) (k : ℕ) : Bool :=
  decide ((((ls.take (k + 1)).count (ls.getD k 0) : ℤ)) ≤
    budget.getD (ls.getD k 0) 0)

theorem retainedB_zero_cons (l : ℕ) (ls : List ℕ) (budget : List ℤ) :
    retainedB (l :: ls) budget 0 = decide ((1:ℤ) ≤ budget.getD l 0) := by
  simp [retainedB, List.take_succ_cons, List.count_cons]

theorem count_take_self_pos {ls : List ℕ} {k : ℕ} (hk : k < ls.length) :
    0 < (ls.take (k + 1)).count (ls.getD k 0) := by
  have h1 : k < (ls.take (k + 1)).length := by
    simp only [List.length_take]
    omega
  have hmem : ls[k] ∈ ls.take (k + 1) := by
    have h2 := List.getElem_mem h1
    rwa [List.getElem_take] at h2
  rw [List.getD_eq_getElem?_getD, List.getElem?_eq_getElem hk,
    Option.getD_some]
  exact List.count_pos_iff.mpr hmem

theorem retainedB_succ_of_set {l : ℕ} {ls : List ℕ} {budget : List ℤ}
    {b : ℤ} (hlb : l < budget.length) (hbD : budget.getD l 0 = b)
    (k : ℕ) :
    retainedB (l :: ls) budget (k + 1) =
      retainedB ls (budget.set l (b - 1)) k := by
  unfold retainedB
  rw [List.getD_cons_succ, List.take_succ_cons, List.count_cons]
  by_cases hll : l = ls.getD k 0
  · rw [← hll]
    have hset : (budget.set l (b - 1)).getD l 0 = b - 1 := by
      rw [List.getD_eq_getElem?_getD, List.getElem?_set_self hlb,
        Option.getD_some]
    rw [hset, hbD]
    rw [decide_eq_decide]
    simp only [beq_self_eq_true, if_true]
    push_cast
    omega
  · have hbeq : (l == ls.getD k 0) = false := beq_eq_false_iff_ne.mpr hll
    rw [hbeq]
    have hset : (budget.set l (b - 1)).getD (ls.getD k 0) 0 =
        budget.getD (ls.getD k 0) 0 := by
      rw [List.getD_eq_getElem?_getD, List.getElem?_set_ne hll,
        ← List.getD_eq_getElem?_getD]
    rw [hset]
    simp

theorem retainedB_succ_of_nonpos {l : ℕ} {ls : List ℕ} {budget : List ℤ}
    {b : ℤ} (hbD : budget.getD l 0 = b) (hb0 : b ≤ 0)
    {k : ℕ} (hk : k < ls.length) :
    retainedB (l :: ls) budget (k + 1) = retainedB ls budget k := by
  unfold retainedB
  rw [List.getD_cons_succ, List.take_succ_cons, List.count_cons]
  by_cases hll : l = ls.getD k 0
  · have hc := count_take_self_pos hk
    rw [← hll] at hc ⊢
    rw [hbD]
    rw [decide_eq_decide]
    simp only [beq_self_eq_true, if_true]
    push_cast
    omega
  · have hbeq : (l == ls.getD k 0) = false := beq_eq_false_iff_ne.mpr hll
    rw [hbeq]
    simp

theorem get_imbalanced_data_go_filter :
    ∀ (ls : List ℕ) (budget : List ℤ) (i : ℕ) (res : List ℕ),
      get_imbalanced_data_go ls budget i = some res →
      res = ((List.range ls.length).filter (retainedB ls budget)).map
        (fun k => k + i) := by
  intro ls
  induction ls with
  | nil =>
    intro budget i res h
    simp only [get_imbalanced_data_go, Option.some.injEq] at h
    subst h
    simp
  | cons l ls ih =>
    intro budget i res h
    simp only [get_imbalanced_data_go] at h
    split at h
    next => simp at h
    next b hb =>
      have hlb : l < budget.length := by
        by_contra hge
        rw [List.getElem?_eq_none (by omega)] at hb
        exact Option.noConfusion hb
      have hbD : budget.getD l 0 = b := by
        rw [List.getD_eq_getElem?_getD, hb, Option.getD_some]
      rw [List.length_cons, List.range_succ_eq_map]
      split at h
      next hpos =>
        cases hr : get_imbalanced_data_go ls (budget.set l (b - 1)) (i + 1)
          with
        | none => rw [hr] at h; simp at h
        | some r =>
          rw [hr] at h
          simp only [Option.map_some', Option.some.injEq] at h
          subst h
          have hr' := ih (budget.set l (b - 1)) (i + 1) r hr
          have hhead : retainedB (l :: ls) budget 0 = true := by
            rw [retainedB_zero_cons, hbD]
            simp only [decide_eq_true_eq]
            omega
          rw [List.filter_cons, if_pos hhead, List.map_cons,
            List.filter_map, List.map_map]
          congr 1
          · omega
          · rw [hr']
            have hfil : List.filter (retainedB (l :: ls) budget ∘ Nat.succ)
                  (List.range ls.length) =
                List.filter (retainedB ls (budget.set l (b - 1)))
                  (List.range ls.length) :=
              List.filter_congr (fun k _ => by
                simp only [Function.comp_apply]
                exact retainedB_succ_of_set hlb hbD k)
            rw [hfil]
            apply List.map_congr_left
            intro a _
            simp only [Function.comp_apply]
            omega
      next hpos =>
        have hb0 : b ≤ 0 := by omega
        have hr' := ih budget (i + 1) res h
        have hhead : ¬ (retainedB (l :: ls) budget 0 = true) := by
          rw [retainedB_zero_cons, hbD]
          simp only [decide_eq_true_eq]
          omega
        rw [List.filter_cons, if_neg hhead, List.filter_map, List.map_map]
        rw [hr']
        have hfil : List.filter (retainedB (l :: ls) budget ∘ Nat.succ)
              (List.range ls.length) =
            List.filter (retainedB ls budget) (List.range ls.length) :=
          List.filter_congr (fun k hk => by
            simp only [Function.comp_apply]
            exact retainedB_succ_of_nonpos hbD hb0 (List.mem_range.mp hk))
        rw [hfil]
        apply List.map_congr_left
        intro a _
        simp only [Function.comp_apply]
        omega

/-- **C7.** The one-pass index builder `get_imbalanced_data` retains a
dataset index exactly while its class still has positive remaining
budget, decrementing the budget on each retention and preserving the
dataset's index order: whenever it returns a list, that list is the
in-order filter of `0 .. len(dataset) - 1` keeping index `k` iff the
number of occurrences of `k`'s label among the first `k + 1` samples
still fits in the label's budget; in particular for labels
`[0, 0, 1, 0]` and target counts `[2, 1]` it returns exactly
`[0, 1, 2]`. -/
theorem get_imbalanced_data_spec :
    (∀ (labels : List ℕ) (num_sample_per_class : List ℤ) (res : List ℕ),
      get_imbalanced_data labels num_sample_per_class = some res →
      res = (List.range labels.length).filter
        (retainedB labels num_sample_per_class)) ∧
    get_imbalanced_data [0, 0, 1, 0] [2, 1] = some [0, 1, 2] := by
  constructor
  · intro labels budget res h
    have hf := get_imbalanced_data_go_filter labels budget 0 res h
    simpa using hf
  · decide

/-- Witness for C7's general characterization at labels `[1, 1]`,
budgets `[0, 1]`. -/
theorem get_imbalanced_data_spec_witness :
    get_imbalanced_data [1, 1] [0, 1] = some [0] ∧
    ([0] : List ℕ) = (List.range ([1, 1] : List ℕ).length).filter
      (retainedB [1, 1] [0, 1]) :=
  ⟨by decide, get_imbalanced_data_spec.1 [1, 1] [0, 1] [0] (by decide)⟩

def insertSorted (x : ℤ) : List ℤ → List ℤ
  | [] => [x]
  | y :: ys => if x ≤ y then x :: y :: ys else y :: insertSorted x ys

def sortInts : List ℤ → List ℤ
  | [] => []
  | x :: xs => insertSorted x (sortInts xs)

/-- `np.unique(targets_np)` (`gen_imbalanced_data` line 94): the
distinct label values in increasing order. -/
def np_unique (labels : List ℤ) : List ℤ := sortInts labels.dedup

/-- `np.where(targets_np == the_class)[0]` (`gen_imbalanced_data`
line 103): the positions of `cls` in `labels`, in increasing order;
`i` is the index of the first element of the remaining list. -/
def posIdx (cls : ℤ) : List ℤ → ℕ → List ℕ
  | [], _ => []
  | x :: xs, i =>
    if x = cls then i :: posIdx cls xs (i + 1) else posIdx cls xs (i + 1)

/-- `M2M_SVHN_LT.gen_imbalanced_data`
(src/imbalanceddl/dataset/m2m_imbalance_svhn.py, lines 90-115),
parameterized by the seeded shuffle `perm` standing for
`np.random.shuffle(idx)` (any permutation of the position list).
For each `(the_class, the_img_num)` in `zip(classes,
img_num_per_cls)` the code records `the_img_num` in
`num_per_cls_dict`, gathers the positions of `the_class`, shuffles
them, keeps the first `the_img_num`, appends the corresponding data
rows, and extends the labels with `the_img_num` copies of
`the_class`; finally the data chunks are `np.vstack`-ed
(concatenated).  Result: `(new data rows, new labels,
num_per_cls_dict as an association list in iteration order)`. -/
def gen_imbalanced_data {α : Type} (perm : List ℕ → List ℕ)
    (data : List α) (dflt : α) (labels : List ℤ)
    (img_num_per_cls : List ℕ) :
    List α × List ℤ × List (ℤ × ℕ) :=
  let classes := np_unique labels
  let pairs := classes.zip img_num_per_cls
  let new_data := (pairs.map (fun p =>
    ((perm (posIdx p.1 labels 0)).take p.2).map
      (fun j => data.getD j dflt))).flatten
  let new_targets := (pairs.map (fun p => List.replicate p.2 p.1)).flatten
  (new_data, new_targets, pairs)

theorem posIdx_length (cls : ℤ) :
    ∀ (labels : List ℤ) (i : ℕ),
      (posIdx cls labels i).length = labels.count cls := by
  intro labels
  induction labels with
  | nil => intro i; simp [posIdx]
  | cons x xs ih =>
    intro i
    simp only [posIdx, List.count_cons]
    by_cases hx : x = cls
    · rw [if_pos hx]
      simp [ih, hx]
    · rw [if_neg hx]
      simp [ih, beq_eq_false_iff_ne.mpr hx]

theorem insertSorted_perm (x : ℤ) :
    ∀ l : List ℤ, (insertSorted x l).Perm (x :: l) := by
  intro l
  induction l with
  | nil => simp [insertSorted]
  | cons y ys ih =>
    simp only [insertSorted]
    by_cases h : x ≤ y
    · rw [if_pos h]
    · rw [if_neg h]
      exact (ih.cons y).trans (List.Perm.swap x y ys)

theorem sortInts_perm : ∀ l : List ℤ, (sortInts l).Perm l := by
  intro l
  induction l with
  | nil => simp [sortInts]
  | cons x xs ih =>
    exact (insertSorted_perm x (sortInts xs)).trans (ih.cons x)

theorem np_unique_nodup (l : List ℤ) : (np_unique l).Nodup :=
  ((sortInts_perm l.dedup).nodup_iff).mpr (List.nodup_dedup l)

theorem map_fst_zip_sublist {α β : Type} :
    ∀ (l1 : List α) (l2 : List β), ((l1.zip l2).map Prod.fst).Sublist l1 := by
  intro l1
  induction l1 with
  | nil => intro l2; simp
  | cons x xs ih =>
    intro l2
    cases l2 with
    | nil => simp
    | cons y ys => simpa using List.Sublist.cons₂ x (ih ys)

/-- **C8.** After imbalanced-dataset construction via
`gen_imbalanced_data`, provided each class's target count does not
exceed its available sample count, the invariant
`sum(num_per_cls_dict.values()) == len(labels) == data.shape[0]`
holds: the dictionary's values sum both to the new label list's
length and to the new data array's number of rows (and the
dictionary's keys are distinct, so the association list is a genuine
dict).  The target-count list and hence every `imb_type` is
arbitrary, as is the seeded shuffle (any permutation). -/
theorem gen_imbalanced_data_invariant {α : Type}
    (perm : List ℕ → List ℕ) (data : List α) (dflt : α)
    (labels : List ℤ) (img_num_per_cls : List ℕ)
    (hperm : ∀ xs : List ℕ, (perm xs).Perm xs)
    (hfit : ∀ p ∈ (np_unique labels).zip img_num_per_cls,
      p.2 ≤ labels.count p.1) :
    (((gen_imbalanced_data perm data dflt labels
        img_num_per_cls).2.2).map Prod.snd).sum =
      ((gen_imbalanced_data perm data dflt labels
        img_num_per_cls).2.1).length ∧
    ((gen_imbalanced_data perm data dflt labels
        img_num_per_cls).2.1).length =
      ((gen_imbalanced_data perm data dflt labels
        img_num_per_cls).1).length ∧
    (((gen_imbalanced_data perm data dflt labels
        img_num_per_cls).2.2).map Prod.fst).Nodup := by
  have htgt : ((gen_imbalanced_data perm data dflt labels
      img_num_per_cls).2.1).length =
      (((np_unique labels).zip img_num_per_cls).map Prod.snd).sum := by
    simp only [gen_imbalanced_data, List.length_flatten, List.map_map]
    congr 1
    apply List.map_congr_left
    intro p _
    simp
  have hdat : ((gen_imbalanced_data perm data dflt labels
      img_num_per_cls).1).length =
      (((np_unique labels).zip img_num_per_cls).map Prod.snd).sum := by
    simp only [gen_imbalanced_data, List.length_flatten, List.map_map]
    congr 1
    apply List.map_congr_left
    intro p hp
    simp only [Function.comp_apply, List.length_map, List.length_take,
      (hperm (posIdx p.1 labels 0)).length_eq, posIdx_length]
    exact min_eq_left (hfit p hp)
  refine ⟨?_, ?_, ?_⟩
  · rw [htgt]
    rfl
  · rw [htgt, hdat]
  · exact List.Nodup.sublist
      (map_fst_zip_sublist (np_unique labels) img_num_per_cls)
      (np_unique_nodup labels)

/-- Witness for C8: identity shuffle, data rows `[10, 20, 30]`,
labels `[0, 0, 1]`, target counts `[1, 1]`. -/
theorem gen_imbalanced_data_invariant_witness :
    (∀ p ∈ (np_unique [0, 0, 1]).zip [1, 1],
      p.2 ≤ ([0, 0, 1] : List ℤ).count p.1) ∧
    ((((gen_imbalanced_data (fun xs => xs) [10, 20, 30] 0 [0, 0, 1]
        [1, 1]).2.2).map Prod.snd).sum =
      ((gen_imbalanced_data (fun xs => xs) [10, 20, 30] 0 [0, 0, 1]
        [1, 1]).2.1).length ∧
    ((gen_imbalanced_data (fun xs => xs) [10, 20, 30] 0 [0, 0, 1]
        [1, 1]).2.1).length =
      ((gen_imbalanced_data (fun xs => xs) [10, 20, 30] 0 [0, 0, 1]
        [1, 1]).1).length ∧
    (((gen_imbalanced_data (fun xs => xs) [10, 20, 30] 0 [0, 0, 1]
        [1, 1]).2.2).map Prod.fst).Nodup) :=
  ⟨by decide,
   gen_imbalanced_data_invariant (fun xs => xs) [10, 20, 30] 0 [0, 0, 1]
     [1, 1] (fun xs => List.Perm.refl xs) (by decide)⟩
